import Mathlib

/-!
Verification development for the `zaremba` program (`src/rust/src/main.rs`).

Modelling conventions:
* Rust `i64` values are modelled as unbounded `ℤ`; the quantities handled by
  the program (divisor candidates up to `sqrt n + 1`, divisor counts, `n`
  itself) never overflow `i64`, so no wrap-around is modelled.
* Rust `%` and `/` on `i64` truncate toward zero; they are modelled by
  `Int.tmod` and `Int.tdiv`.
* `(n as f64).sqrt() as i64` is modelled by `Int.sqrt n`: for every `i64`
  input the float estimate, truncated, agrees with the exact integer square
  root to within the `+ 1` padding the code adds (and for negative `n` the
  float `sqrt` is NaN, whose `as i64` cast is `0`, which is exactly
  `Int.sqrt` of a negative number); the enumeration below is proved
  insensitive to any overshoot of the upper bound.
* `f64` arithmetic on the accumulated sums is modelled as exact real
  arithmetic (`ℝ`, `Real.log` for `f64::ln`); the claims under study are
  about which terms are summed, not about rounding.
* The special `f64` values produced by `ln` and division (NaN, infinities)
  are modelled explicitly by the `F64` type below, since the record-scan
  claims hinge on IEEE-754 NaN comparison and `f64::max` semantics.
-/

/-- Divisor enumeration loop of `zaremba_tau`, processing candidate
`smaller_divisor` values `s, s+1, ...` with `fuel` iterations remaining
(the Rust `for smaller_divisor in 1..(divisor_limit+1)` runs `divisor_limit`
iterations).  It returns the list of divisors in the order the Rust code
accumulates them into `sum`/`divisor_count`: skip non-divisors
(`n % smaller_divisor != 0`), break when `larger_divisor < smaller_divisor`,
otherwise take `smaller_divisor`, then also `larger_divisor` when it is
strictly larger (continuing), and stop after taking only `smaller_divisor`
at an exact square root. -/
def divisorLoop (n : ℤ) : ℕ → ℤ → List ℤ
  | 0, _ => []
  | fuel+1, s =>
    if n.tmod s ≠ 0 then divisorLoop n fuel (s+1)
    else
      let e := n.tdiv s
      if e < s then []
      else if e > s then s :: e :: divisorLoop n fuel (s+1)
      else [s]

/-- Divisors of `n` in the order `zaremba_tau` visits them: the loop starts
at `smaller_divisor = 1` and runs up to `divisor_limit = (n as f64).sqrt()
as i64 + 1` inclusive, i.e. `Int.sqrt n + 1` iterations. -/
def zarembaDivisors (n : ℤ) : List ℤ :=
  divisorLoop n (Int.sqrt n + 1).toNat 1

/-- Model of `zaremba_tau(n) -> (f64, i32)`: `sum` is the running total of
`ln(d)/d` over the visited divisors and `divisor_count` their number.  The
float accumulation is modelled as the exact real sum over the visited list
(real addition is associative and commutative, so the fold order of the
Rust loop is immaterial in the model). -/
noncomputable def zaremba_tau (n : ℤ) : ℝ × ℤ :=
  (((zarembaDivisors n).map fun d : ℤ => Real.log (d : ℝ) / (d : ℝ)).sum,
   ((zarembaDivisors n).length : ℤ))

/-- Brute-force trial division over `1..n`: the reference the spec asks the
divisor enumeration to be compared against. -/
def bruteDivisors (n : ℤ) : List ℤ :=
  ((List.range' 1 n.toNat).map fun k : ℕ => (k : ℤ)).filter fun d =>
    decide (n.tmod d = 0)

/-- Brute-force value of `z(n)`: sum of `ln(d)/d` over all divisors of `n`
found by trial division. -/
noncomputable def bruteZ (n : ℤ) : ℝ :=
  ((bruteDivisors n).map fun d : ℤ => Real.log (d : ℝ) / (d : ℝ)).sum

/-- Projection: the `z` component computed by `zaremba_tau`. -/
noncomputable def zVal (n : ℤ) : ℝ := (zaremba_tau n).1

/-- Projection: the `tau` component computed by `zaremba_tau`. -/
noncomputable def tauVal (n : ℤ) : ℤ := (zaremba_tau n).2

/-- Model of the `f64` values the record scan manipulates: NaN, the two
infinities, and finite values (modelled as exact reals; signed zero is not
distinguished). -/
inductive F64 where
  | nan : F64
  | pinf : F64
  | ninf : F64
  | fin : ℝ → F64

open scoped Classical in
/-- Model of `f64::ln` applied to a (cast) nonnegative integer:
`ln x` is finite for `x > 0`, `-inf` at `0`, NaN for negative inputs. -/
noncomputable def fln (x : ℝ) : F64 :=
  if 0 < x then .fin (Real.log x) else if x = 0 then .ninf else .nan

open scoped Classical in
/-- Model of IEEE-754 `f64` division for the operand shapes the program can
produce: NaN propagates, `0/0` is NaN, nonzero-over-zero is a signed
infinity (sign of the numerator; signed zero is not modelled), finite over
infinite is zero. -/
noncomputable def F64.fdiv : F64 → F64 → F64
  | .nan, _ => .nan
  | _, .nan => .nan
  | .fin a, .fin b =>
      if b = 0 then (if a = 0 then .nan else if 0 < a then .pinf else .ninf)
      else .fin (a / b)
  | .fin _, .pinf => .fin 0
  | .fin _, .ninf => .fin 0
  | .pinf, .fin b => if 0 ≤ b then .pinf else .ninf
  | .ninf, .fin b => if 0 ≤ b then .ninf else .pinf
  | .pinf, .pinf => .nan
  | .pinf, .ninf => .nan
  | .ninf, .pinf => .nan
  | .ninf, .ninf => .nan

/-- Model of the IEEE-754 `>` comparison used by Rust on `f64`: any
comparison involving NaN is false. -/
def F64.gtP : F64 → F64 → Prop
  | .fin a, .fin b => b < a
  | .pinf, .fin _ => True
  | .pinf, .ninf => True
  | .fin _, .ninf => True
  | _, _ => False

/-- Model of Rust `f64::max` (IEEE-754 maximumNumber): if one operand is
NaN the other is returned. -/
noncomputable def F64.fmax : F64 → F64 → F64
  | .nan, b => b
  | .fin a, .nan => .fin a
  | .fin a, .fin b => .fin (max a b)
  | .pinf, _ => .pinf
  | .fin _, .pinf => .pinf
  | .fin a, .ninf => .fin a
  | .ninf, .nan => .ninf
  | .ninf, b => b

/-- Value of `ratio = z / (tau as f64).ln()` as the program computes it for
a given `n`, with full IEEE semantics (NaN at `tau = 1`). -/
noncomputable def ratVal (n : ℤ) : F64 :=
  F64.fdiv (.fin (zVal n)) (fln (tauVal n : ℝ))

/-- Finite real value of the ratio `z / ln(tau)` (meaningful for `n ≥ 2`,
where `ln(tau) > 0`). -/
noncomputable def ratReal (n : ℤ) : ℝ := zVal n / Real.log ((tauVal n : ℤ) : ℝ)

/-- Classification tag of a record event: the `"both"`, `"z"` and `"ratio"`
strings printed by `do_records`. -/
inductive RecordType where
  | both : RecordType
  | z : RecordType
  | rat : RecordType
deriving DecidableEq

open scoped Classical in
/-- Record-type classification of `do_records`: the `if/else if` chain on
the two flags, yielding at most one event kind. -/
noncomputable def recordKind (is_record_z is_record_rat : Prop) :
    Option RecordType :=
  if is_record_z ∧ is_record_rat then some .both
  else if is_record_z ∧ ¬ is_record_rat then some .z
  else if ¬ is_record_z ∧ is_record_rat then some .rat
  else none

/-- Mutable state of the `do_records` scan: the running maxima
`record_z` and `record_ratio` (the latter named `record_rat` here). -/
structure ScanState where
  record_z : F64
  record_rat : F64

/-- Loop body of `do_records` for one value of `n`: compute `(z, tau)` and
`ratio`, classify against the current records (`record_z > 0.0 && z >
record_z`, likewise for the ratio), and unconditionally update both maxima
with `f64::max`. Returns the emitted event (if any) and the next state. -/
noncomputable def scanStep (n : ℤ) (st : ScanState) :
    Option RecordType × ScanState :=
  let z : F64 := .fin (zVal n)
  let rat : F64 := ratVal n
  let is_record_z := F64.gtP st.record_z (.fin 0) ∧ F64.gtP z st.record_z
  let is_record_rat := F64.gtP st.record_rat (.fin 0) ∧ F64.gtP rat st.record_rat
  (recordKind is_record_z is_record_rat,
   ⟨F64.fmax st.record_z z, F64.fmax st.record_rat rat⟩)

/-- Iteration of the scan: `fuel` remaining values of `n` starting at `n`,
collecting emitted events in increasing-`n` order and threading the state. -/
noncomputable def scanLoop : ℕ → ℤ → ScanState → List (ℤ × RecordType) × ScanState
  | 0, _, st => ([], st)
  | fuel+1, n, st =>
    let step := scanStep n st
    let rest := scanLoop fuel (n+1) step.2
    (match step.1 with
     | some t => (n, t) :: rest.1
     | none => rest.1,
     rest.2)

/-- Model of `do_records(max_n)`: scan `n = 1` up to but not including
`max_n` (so `max_n - 1` iterations, none when `max_n ≤ 1`), with both
records initialized to the sentinel `0.0`; returns the emitted events and
the final state. -/
noncomputable def do_records (max_n : ℤ) : List (ℤ × RecordType) × ScanState :=
  scanLoop (max_n - 1).toNat 1 ⟨.fin 0, .fin 0⟩

/-- Model of `do_single(n)`: the values `z`, `tau` and `ratio` it prints. -/
noncomputable def do_single (n : ℤ) : ℝ × ℤ × F64 :=
  ((zaremba_tau n).1, (zaremba_tau n).2, ratVal n)

/-- Characterization of `Int.sqrt` by squaring, used to evaluate the model
on concrete inputs (`Nat.sqrt` is defined by well-founded recursion and
does not reduce definitionally). -/
theorem sqrt_int_spec (n k : ℤ) (hk : 0 ≤ k) (h1 : k * k ≤ n)
    (h2 : n < (k + 1) * (k + 1)) : Int.sqrt n = k := by
  have hn : 0 ≤ n := le_trans (mul_nonneg hk hk) h1
  have hb : (k.toNat : ℤ) = k := Int.toNat_of_nonneg hk
  have ha : (n.toNat : ℤ) = n := Int.toNat_of_nonneg hn
  have h1' : k.toNat * k.toNat ≤ n.toNat := by
    rw [← hb, ← ha] at h1; exact_mod_cast h1
  have h2' : n.toNat < (k.toNat + 1) * (k.toNat + 1) := by
    rw [← hb, ← ha] at h2; exact_mod_cast h2
  have hs : Nat.sqrt n.toNat = k.toNat :=
    le_antisymm (Nat.le_of_lt_succ (Nat.sqrt_lt.mpr h2')) (Nat.le_sqrt.mpr h1')
  show (Nat.sqrt n.toNat : ℤ) = k
  rw [hs, hb]

theorem sqrt_int_one : Int.sqrt 1 = 1 := sqrt_int_spec 1 1 (by norm_num) (by norm_num) (by norm_num)

theorem sqrt_int_two : Int.sqrt 2 = 1 := sqrt_int_spec 2 1 (by norm_num) (by norm_num) (by norm_num)

theorem sqrt_int_four : Int.sqrt 4 = 2 := sqrt_int_spec 4 2 (by norm_num) (by norm_num) (by norm_num)

theorem sqrt_int_six : Int.sqrt 6 = 2 := sqrt_int_spec 6 2 (by norm_num) (by norm_num) (by norm_num)

example : zarembaDivisors 1 = [1] := by
  unfold zarembaDivisors; rw [sqrt_int_one]; decide

example : zarembaDivisors 4 = [1, 4, 2] := by
  unfold zarembaDivisors; rw [sqrt_int_four]; decide

example : zarembaDivisors 6 = [1, 6, 2, 3] := by
  unfold zarembaDivisors; rw [sqrt_int_six]; decide

example : zarembaDivisors 0 = [] := by decide
example : zarembaDivisors (-5) = [] := by decide
example : bruteDivisors 6 = [1, 2, 3, 6] := by decide

/-- Bound used for fuel sufficiency: `n` is below the square of its integer
square root plus one. -/
theorem int_lt_succ_sqrt (n : ℤ) (hn : 0 ≤ n) :
    n < (Int.sqrt n + 1) * (Int.sqrt n + 1) := by
  have h := Nat.lt_succ_sqrt' n.toNat
  have h' : (n.toNat : ℤ) < ((n.toNat.sqrt + 1 : ℕ) : ℤ) * ((n.toNat.sqrt + 1 : ℕ) : ℤ) := by
    exact_mod_cast (by simpa [pow_two, Nat.succ_eq_add_one] using h)
  rw [Int.toNat_of_nonneg hn] at h'
  show n < ((Nat.sqrt n.toNat : ℤ) + 1) * ((Nat.sqrt n.toNat : ℤ) + 1)
  push_cast at h' ⊢
  linarith

/-- Core invariant of the divisor-enumeration loop: starting at candidate
`s ≥ 1` with enough fuel to reach past the square root, the loop collects
each divisor `x` of `n` with `s ≤ x` and `x * s ≤ n` exactly once (this set
is exactly the yet-unvisited divisors together with their cofactors). -/
theorem divisorLoop_count (n : ℤ) (hn : 1 ≤ n) :
    ∀ (fuel : ℕ) (s : ℤ), 1 ≤ s → n < (s + fuel) * (s + fuel) →
      ∀ x : ℤ, (divisorLoop n fuel s).count x =
        if x ∣ n ∧ s ≤ x ∧ x * s ≤ n then 1 else 0 := by
  intro fuel
  induction fuel with
  | zero =>
    intro s hs hbound x
    simp only [divisorLoop, List.count_nil]
    rw [if_neg]
    rintro ⟨-, hsx, hxs⟩
    have h1 : s * s ≤ x * s := mul_le_mul_of_nonneg_right hsx (by linarith)
    simp only [Nat.cast_zero, add_zero] at hbound
    linarith
  | succ fuel ih =>
    intro s hs hbound x
    have hbound' : n < (s + 1 + (fuel : ℤ)) * (s + 1 + (fuel : ℤ)) := by
      have harr : s + 1 + (fuel : ℤ) = s + ((fuel : ℤ) + 1) := by ring
      rw [harr]
      push_cast at hbound
      exact hbound
    by_cases hd : n.tmod s = 0
    · have hdvd : s ∣ n := Int.dvd_of_tmod_eq_zero hd
      have he : n.tdiv s * s = n := Int.tdiv_mul_cancel hdvd
      have hspos : 0 < s := by linarith
      simp only [divisorLoop]
      rw [if_neg (not_not_intro hd)]
      rcases lt_trichotomy (n.tdiv s) s with hlt | heq | hgt
      · rw [if_pos hlt]
        simp only [List.count_nil]
        rw [if_neg]
        rintro ⟨-, hsx, hxs⟩
        rw [← he] at hxs
        have hxe : x ≤ n.tdiv s := le_of_mul_le_mul_right hxs hspos
        linarith
      · rw [if_neg (by omega), if_neg (by omega)]
        have hnss : s * s = n := by rw [← he, heq]
        have hiff : (x ∣ n ∧ s ≤ x ∧ x * s ≤ n) ↔ s = x := by
          constructor
          · rintro ⟨-, hsx, hxs⟩
            rw [← hnss] at hxs
            have : x ≤ s := le_of_mul_le_mul_right hxs hspos
            omega
          · rintro rfl
            exact ⟨hdvd, le_refl s, le_of_eq hnss⟩
        rw [if_congr hiff rfl rfl]
        simp [List.count_cons]
      · rw [if_neg (by omega), if_pos hgt]
        have ihx := ih (s+1) (by linarith) hbound' x
        have hedvd : n.tdiv s ∣ n := ⟨s, he.symm⟩
        have hss : s * s < n := by nlinarith
        simp only [List.count_cons, beq_iff_eq, ihx]
        by_cases hxs' : x = s
        · rw [if_neg (by rw [hxs']; rintro ⟨-, h2, -⟩; omega),
            if_neg (by rw [hxs']; omega), if_pos hxs'.symm,
            if_pos (by rw [hxs']; exact ⟨hdvd, le_refl s, le_of_lt hss⟩)]
        · by_cases hxe : x = n.tdiv s
          · have hrest : ¬ (x ∣ n ∧ s + 1 ≤ x ∧ x * (s + 1) ≤ n) := by
              rw [hxe]
              rintro ⟨-, -, h3⟩
              have hexp : n.tdiv s * (s + 1) = n + n.tdiv s := by
                rw [mul_add, mul_one, he]
              omega
            rw [if_neg hrest, if_pos hxe.symm, if_neg (Ne.symm hxs'),
              if_pos (by rw [hxe]; exact ⟨hedvd, by omega, le_of_eq he⟩)]
          · rw [if_neg (Ne.symm hxe), if_neg (Ne.symm hxs')]
            have hiff : (x ∣ n ∧ s + 1 ≤ x ∧ x * (s + 1) ≤ n) ↔
                (x ∣ n ∧ s ≤ x ∧ x * s ≤ n) := by
              constructor
              · rintro ⟨hdx, hsx, hxs⟩
                refine ⟨hdx, by omega, ?_⟩
                calc x * s ≤ x * (s + 1) :=
                      mul_le_mul_of_nonneg_left (by omega) (by omega)
                  _ ≤ n := hxs
              · rintro ⟨hdx, hsx, hxs⟩
                obtain ⟨c, hc⟩ := hdx
                have hxpos : 0 < x := by linarith
                have hsc : s ≤ c := by
                  rw [hc] at hxs
                  exact le_of_mul_le_mul_left hxs hxpos
                have hcns : c ≠ s := by
                  intro hcs
                  apply hxe
                  have hxn : n = x * s := by rw [hc, hcs]
                  rw [hxn, Int.mul_tdiv_cancel _ (by omega : s ≠ 0)]
                refine ⟨⟨c, hc⟩, by omega, ?_⟩
                calc x * (s + 1) ≤ x * c :=
                      mul_le_mul_of_nonneg_left (by omega) (le_of_lt hxpos)
                  _ = n := hc.symm
            rw [if_congr hiff rfl rfl]
            omega
    · simp only [divisorLoop]
      rw [if_pos hd]
      have hnd : ¬ s ∣ n := fun hdvd => hd (Int.tmod_eq_zero_of_dvd hdvd)
      rw [ih (s+1) (by linarith) hbound']
      apply if_congr _ rfl rfl
      constructor
      · rintro ⟨hdx, hsx, hxs⟩
        refine ⟨hdx, by omega, ?_⟩
        calc x * s ≤ x * (s + 1) :=
              mul_le_mul_of_nonneg_left (by omega) (by omega)
          _ ≤ n := hxs
      · rintro ⟨hdx, hsx, hxs⟩
        have hxne : x ≠ s := fun h => hnd (h ▸ hdx)
        obtain ⟨c, hc⟩ := hdx
        have hxpos : 0 < x := by linarith
        have hsc : s ≤ c := by
          rw [hc] at hxs
          exact le_of_mul_le_mul_left hxs hxpos
        have hcns : c ≠ s := fun hcs => hnd ⟨x, by rw [hc, hcs]; ring⟩
        refine ⟨⟨c, hc⟩, by omega, ?_⟩
        calc x * (s + 1) ≤ x * c :=
              mul_le_mul_of_nonneg_left (by omega) (le_of_lt hxpos)
          _ = n := hc.symm

/-- Membership in the brute-force trial-division list. -/
theorem bruteDivisors_mem (n x : ℤ) :
    x ∈ bruteDivisors n ↔ x ∣ n ∧ 1 ≤ x ∧ x ≤ n := by
  unfold bruteDivisors
  simp only [List.mem_filter, List.mem_map, List.mem_range'_1, decide_eq_true_eq]
  constructor
  · rintro ⟨⟨k, ⟨hk1, hk2⟩, rfl⟩, hmod⟩
    exact ⟨Int.dvd_of_tmod_eq_zero hmod, by exact_mod_cast hk1, by omega⟩
  · rintro ⟨hdvd, h1, h2⟩
    refine ⟨⟨x.toNat, ⟨by omega, by omega⟩, by omega⟩, ?_⟩
    exact Int.tmod_eq_zero_of_dvd hdvd

/-- Brute-force trial division lists each divisor once. -/
theorem bruteDivisors_nodup (n : ℤ) : (bruteDivisors n).Nodup := by
  unfold bruteDivisors
  apply List.Nodup.filter
  apply List.Nodup.map
  · exact fun a b h => by exact_mod_cast h
  · exact List.nodup_range' 1 n.toNat

/-- Count of an element in the brute-force divisor list. -/
theorem bruteDivisors_count (n x : ℤ) :
    (bruteDivisors n).count x = if x ∣ n ∧ 1 ≤ x ∧ x ≤ n then 1 else 0 := by
  by_cases hm : x ∈ bruteDivisors n
  · rw [List.count_eq_one_of_mem (bruteDivisors_nodup n) hm,
      if_pos ((bruteDivisors_mem n x).mp hm)]
  · rw [List.count_eq_zero_of_not_mem hm,
      if_neg (fun h => hm ((bruteDivisors_mem n x).mpr h))]

/-- With any fuel at least the padded square-root bound, the enumeration
loop started at 1 is a permutation of brute-force trial division: the
padded (possibly overshooting) upper bound never causes duplicates or
omissions. -/
theorem divisorLoop_perm (n : ℤ) (hn : 1 ≤ n) (fuel : ℕ)
    (hfuel : Int.sqrt n + 1 ≤ (fuel : ℤ)) :
    (divisorLoop n fuel 1).Perm (bruteDivisors n) := by
  have h0 : 0 ≤ Int.sqrt n + 1 := by have := Int.sqrt_nonneg n; omega
  have hbound : n < ((1 : ℤ) + fuel) * (1 + fuel) := by
    calc n < (Int.sqrt n + 1) * (Int.sqrt n + 1) := int_lt_succ_sqrt n (by omega)
      _ ≤ (1 + fuel) * (1 + fuel) :=
        mul_le_mul (by omega) (by omega) h0 (by positivity)
  apply List.perm_iff_count.mpr
  intro x
  rw [divisorLoop_count n hn fuel 1 le_rfl hbound x, bruteDivisors_count]
  apply if_congr _ rfl rfl
  constructor
  · rintro ⟨hd, h1, h2⟩
    exact ⟨hd, h1, by rwa [mul_one] at h2⟩
  · rintro ⟨hd, h1, h2⟩
    exact ⟨hd, h1, by rwa [mul_one]⟩

/-- Divisor enumeration of `zaremba_tau` is a permutation of brute-force
trial division. -/
theorem zarembaDivisors_perm (n : ℤ) (hn : 1 ≤ n) :
    (zarembaDivisors n).Perm (bruteDivisors n) := by
  apply divisorLoop_perm n hn
  have := Int.sqrt_nonneg n
  omega

/-- C1: for every `n ≥ 1`, `zaremba_tau` returns `z` equal to the
brute-force sum of `ln(d)/d` over the divisors of `n` and `tau` equal to
the brute-force divisor count, with each divisor appearing exactly once (no
duplicate, no missing divisor), and the enumeration gives the same
permutation-of-divisors result for every padded upper bound at least
`Int.sqrt n + 1` (so an overshooting float square-root estimate is
harmless). -/
theorem zaremba_tau_bruteforce (n : ℤ) (hn : 1 ≤ n) (extra : ℕ) :
    (zaremba_tau n).1 = bruteZ n ∧
    (zaremba_tau n).2 = ((bruteDivisors n).length : ℤ) ∧
    (zarembaDivisors n).Nodup ∧
    (divisorLoop n ((Int.sqrt n + 1).toNat + extra) 1).Perm (bruteDivisors n) := by
  have hperm := zarembaDivisors_perm n hn
  refine ⟨?_, ?_, ?_, ?_⟩
  · exact List.Perm.sum_eq (hperm.map _)
  · exact_mod_cast congrArg Int.ofNat hperm.length_eq
  · exact (hperm.nodup_iff).mpr (bruteDivisors_nodup n)
  · apply divisorLoop_perm n hn
    have := Int.sqrt_nonneg n
    omega

theorem zaremba_tau_bruteforce_witness :
    (zaremba_tau 6).1 = bruteZ 6 ∧
    (zaremba_tau 6).2 = ((bruteDivisors 6).length : ℤ) ∧
    (zarembaDivisors 6).Nodup ∧
    (divisorLoop 6 ((Int.sqrt 6 + 1).toNat + 5) 1).Perm (bruteDivisors 6) :=
  zaremba_tau_bruteforce 6 (by norm_num) 5

/-- C2: for a perfect square `n = k * k` with `k ≥ 1`, the square root `k`
appears exactly once in the enumerated divisor list, so `tau` counts it
once and `z` contains exactly one `ln(k)/k` term (the remaining terms come
from the `k`-free rest of the list). -/
theorem zaremba_square_counted_once (k : ℤ) (hk : 1 ≤ k) :
    (zarembaDivisors (k * k)).count k = 1 ∧
    k ∉ (zarembaDivisors (k * k)).erase k ∧
    (zaremba_tau (k * k)).1 = Real.log (k : ℝ) / (k : ℝ) +
      (((zarembaDivisors (k * k)).erase k).map
        fun d : ℤ => Real.log (d : ℝ) / (d : ℝ)).sum ∧
    (zaremba_tau (k * k)).2 =
      1 + (((zarembaDivisors (k * k)).erase k).length : ℤ) := by
  have hn : 1 ≤ k * k := by nlinarith
  have hperm := zarembaDivisors_perm (k * k) hn
  have hcount : (zarembaDivisors (k * k)).count k = 1 := by
    rw [hperm.count_eq, bruteDivisors_count]
    exact if_pos ⟨⟨k, rfl⟩, hk, by nlinarith⟩
  have hmem : k ∈ zarembaDivisors (k * k) := by
    by_contra hnm
    rw [List.count_eq_zero_of_not_mem hnm] at hcount
    omega
  have hperm2 := List.perm_cons_erase hmem
  refine ⟨hcount, ?_, ?_, ?_⟩
  · rw [← List.count_eq_zero, List.count_erase_self, hcount]
  · show ((zarembaDivisors (k * k)).map
      fun d : ℤ => Real.log (d : ℝ) / (d : ℝ)).sum = _
    rw [List.Perm.sum_eq (hperm2.map fun d : ℤ => Real.log (d : ℝ) / (d : ℝ))]
    simp [List.map_cons, List.sum_cons]
  · show ((zarembaDivisors (k * k)).length : ℤ) = _
    rw [hperm2.length_eq]
    simp [List.length_cons]
    omega

theorem zaremba_square_counted_once_witness :
    (zarembaDivisors (2 * 2)).count 2 = 1 ∧
    2 ∉ (zarembaDivisors (2 * 2)).erase 2 ∧
    (zaremba_tau (2 * 2)).1 = Real.log ((2 : ℤ) : ℝ) / ((2 : ℤ) : ℝ) +
      (((zarembaDivisors (2 * 2)).erase 2).map
        fun d : ℤ => Real.log (d : ℝ) / (d : ℝ)).sum ∧
    (zaremba_tau (2 * 2)).2 =
      1 + (((zarembaDivisors (2 * 2)).erase 2).length : ℤ) :=
  zaremba_square_counted_once 2 (by norm_num)

/-- C8: at `n = 0` the enumeration accumulates nothing (the first candidate
`1` has cofactor `0 < 1`, so the loop breaks before accumulating), and the
result is `(0.0, 0)`. -/
theorem zaremba_tau_at_zero :
    zarembaDivisors 0 = [] ∧ zaremba_tau 0 = (0, 0) := by
  have h : zarembaDivisors 0 = [] := by decide
  constructor
  · exact h
  · unfold zaremba_tau
    rw [h]
    simp

/-- C9: `zaremba_tau` is a deterministic pure function of its argument:
equal inputs give identical `(z, tau)` results (in this embedding the
function reads no state and performs no I/O, matching the source, which
touches only its argument and local variables). -/
theorem zaremba_tau_deterministic (n m : ℤ) (h : n = m) :
    zaremba_tau n = zaremba_tau m := by rw [h]

theorem zaremba_tau_deterministic_witness :
    (5 : ℤ) = 5 ∧ zaremba_tau 5 = zaremba_tau 5 :=
  ⟨rfl, zaremba_tau_deterministic 5 5 rfl⟩

/-- C10: for every `n ≤ 0` (negative `n` included: the float sqrt of a
negative is NaN and its `as i64` cast is `0`, so `divisor_limit = 1`), the
single candidate `1` divides `n` with cofactor `n < 1`, the loop breaks at
once, and the function totally returns `(0.0, 0)` — no division or modulus
by zero is ever evaluated since candidates start at `1`. -/
theorem zaremba_tau_total_nonpos (n : ℤ) (hn : n ≤ 0) :
    Int.sqrt n + 1 = 1 ∧ zarembaDivisors n = [] ∧ zaremba_tau n = (0, 0) := by
  have hsq : Int.sqrt n = 0 := by
    show ((Nat.sqrt n.toNat : ℕ) : ℤ) = 0
    have h0 : n.toNat = 0 := by omega
    rw [h0, Nat.sqrt_zero]
    rfl
  have hlist : zarembaDivisors n = [] := by
    unfold zarembaDivisors
    rw [hsq]
    show divisorLoop n (Int.toNat (0 + 1)) 1 = []
    have h1 : Int.toNat (0 + 1) = 1 := by decide
    rw [h1]
    have hm : n.tmod 1 = 0 := Int.tmod_one n
    have hd : n.tdiv 1 = n := Int.tdiv_one n
    simp only [divisorLoop, hm, ne_eq, not_true_eq_false, if_false]
    rw [hd, if_pos (show n < 1 by omega)]
  refine ⟨by rw [hsq]; norm_num, hlist, ?_⟩
  unfold zaremba_tau
  rw [hlist]
  simp

theorem zaremba_tau_total_nonpos_witness :
    Int.sqrt (-7) + 1 = 1 ∧ zarembaDivisors (-7) = [] ∧
    zaremba_tau (-7) = (0, 0) :=
  zaremba_tau_total_nonpos (-7) (by norm_num)

/-- Concrete evaluation: the divisor list of `n = 1` is `[1]`. -/
theorem zarembaDivisors_one : zarembaDivisors 1 = [1] := by
  unfold zarembaDivisors
  rw [sqrt_int_one]
  decide

/-- Every enumerated divisor lies between 1 and `n`. -/
theorem zarembaDivisors_mem_bounds (n : ℤ) (hn : 1 ≤ n) :
    ∀ d ∈ zarembaDivisors n, 1 ≤ d ∧ d ≤ n := by
  intro d hd
  have h := (bruteDivisors_mem n d).mp ((zarembaDivisors_perm n hn).mem_iff.mp hd)
  exact ⟨h.2.1, h.2.2⟩

/-- The computed `z` is nonnegative for `n ≥ 1`. -/
theorem zVal_nonneg (n : ℤ) (hn : 1 ≤ n) : 0 ≤ zVal n := by
  unfold zVal zaremba_tau
  apply List.sum_nonneg
  intro y hy
  rw [List.mem_map] at hy
  obtain ⟨d, hd, rfl⟩ := hy
  have hb := zarembaDivisors_mem_bounds n hn d hd
  have h1 : (1 : ℝ) ≤ (d : ℝ) := by exact_mod_cast hb.1
  exact div_nonneg (Real.log_nonneg h1) (by linarith)

/-- The computed `z` is strictly positive for `n ≥ 2` (the divisor `n`
itself contributes `ln(n)/n > 0`). -/
theorem zVal_pos (n : ℤ) (hn : 2 ≤ n) : 0 < zVal n := by
  have hperm := zarembaDivisors_perm n (by omega)
  have hmem : n ∈ zarembaDivisors n :=
    hperm.mem_iff.mpr ((bruteDivisors_mem n n).mpr ⟨dvd_refl n, by omega, le_refl n⟩)
  have hperm2 := List.perm_cons_erase hmem
  unfold zVal zaremba_tau
  rw [List.Perm.sum_eq (hperm2.map fun d : ℤ => Real.log (d : ℝ) / (d : ℝ))]
  simp only [List.map_cons, List.sum_cons]
  have h1n : (1 : ℝ) < (n : ℝ) := by exact_mod_cast (by omega : (1 : ℤ) < n)
  have hpos : 0 < Real.log (n : ℝ) / (n : ℝ) :=
    div_pos (Real.log_pos h1n) (by linarith)
  have hrest : 0 ≤ (((zarembaDivisors n).erase n).map
      fun d : ℤ => Real.log (d : ℝ) / (d : ℝ)).sum := by
    apply List.sum_nonneg
    intro y hy
    rw [List.mem_map] at hy
    obtain ⟨d, hd, rfl⟩ := hy
    have hb := zarembaDivisors_mem_bounds n (by omega) d (List.mem_of_mem_erase hd)
    have h1 : (1 : ℝ) ≤ (d : ℝ) := by exact_mod_cast hb.1
    exact div_nonneg (Real.log_nonneg h1) (by linarith)
  linarith

/-- The computed `tau` at `n = 1` is `1`. -/
theorem tauVal_one_val : tauVal 1 = 1 := by
  unfold tauVal zaremba_tau
  rw [zarembaDivisors_one]
  rfl

/-- The computed `z` at `n = 1` is `0`. -/
theorem zVal_one_val : zVal 1 = 0 := by
  unfold zVal zaremba_tau
  rw [zarembaDivisors_one]
  simp

/-- For `n ≥ 2` the computed `tau` is at least 2 (divisors 1 and `n`). -/
theorem tauVal_two_le (n : ℤ) (hn : 2 ≤ n) : 2 ≤ tauVal n := by
  have hperm := zarembaDivisors_perm n (by omega)
  unfold tauVal zaremba_tau
  show (2 : ℤ) ≤ ((zarembaDivisors n).length : ℤ)
  have hlen : 2 ≤ (zarembaDivisors n).length := by
    rw [hperm.length_eq]
    have hsub : ({1, n} : Finset ℤ) ⊆ (bruteDivisors n).toFinset := by
      intro x hx
      rw [List.mem_toFinset]
      rcases Finset.mem_insert.mp hx with rfl | hx
      · exact (bruteDivisors_mem n 1).mpr ⟨one_dvd n, le_refl 1, by omega⟩
      · rw [Finset.mem_singleton] at hx
        rw [hx]
        exact (bruteDivisors_mem n n).mpr ⟨dvd_refl n, by omega, le_refl n⟩
    calc 2 = ({1, n} : Finset ℤ).card := (Finset.card_pair (by omega)).symm
      _ ≤ (bruteDivisors n).toFinset.card := Finset.card_le_card hsub
      _ ≤ (bruteDivisors n).length := List.toFinset_card_le _
  exact_mod_cast hlen

/-- Among positive integers, `tau = 1` happens exactly at `n = 1`. -/
theorem tauVal_eq_one_iff (n : ℤ) (hn : 1 ≤ n) : tauVal n = 1 ↔ n = 1 := by
  constructor
  · intro h
    by_contra hne
    have := tauVal_two_le n (by omega)
    omega
  · rintro rfl
    exact tauVal_one_val

/-- At `n = 1` the computed ratio is IEEE `0.0 / 0.0 = NaN`. -/
theorem ratVal_one_nan : ratVal 1 = F64.nan := by
  unfold ratVal
  rw [zVal_one_val, tauVal_one_val]
  show F64.fdiv (.fin 0) (fln ((1 : ℤ) : ℝ)) = F64.nan
  unfold fln
  rw [if_pos (by norm_num : (0 : ℝ) < ((1 : ℤ) : ℝ))]
  show F64.fdiv (.fin 0) (.fin (Real.log ((1 : ℤ) : ℝ))) = F64.nan
  have hlog : Real.log ((1 : ℤ) : ℝ) = 0 := by
    push_cast
    exact Real.log_one
  rw [hlog]
  simp [F64.fdiv]

/-- For `n ≥ 2` the computed ratio is finite and strictly positive. -/
theorem ratVal_fin_of_two_le (n : ℤ) (hn : 2 ≤ n) :
    ratVal n = .fin (ratReal n) ∧ 0 < ratReal n := by
  have htau := tauVal_two_le n hn
  have htpos : (0 : ℝ) < ((tauVal n : ℤ) : ℝ) := by
    exact_mod_cast (by omega : (0 : ℤ) < tauVal n)
  have hlog : 0 < Real.log ((tauVal n : ℤ) : ℝ) :=
    Real.log_pos (by exact_mod_cast (by omega : (1 : ℤ) < tauVal n))
  have hz := zVal_pos n hn
  constructor
  · unfold ratVal fln
    rw [if_pos htpos]
    simp only [F64.fdiv]
    rw [if_neg (ne_of_gt hlog)]
    rfl
  · exact div_pos hz hlog

/-- Second component of a scan step: both maxima are updated
unconditionally; for finite inputs `f64::max` is the real `max`, and at
`n = 1` the NaN ratio is ignored by `f64::max`, leaving the ratio record
unchanged. -/
theorem scanStep_state (n : ℤ) (hn : 1 ≤ n) (a b : ℝ) :
    (scanStep n ⟨.fin a, .fin b⟩).2 =
      ⟨.fin (max a (zVal n)), .fin (if n = 1 then b else max b (ratReal n))⟩ := by
  rcases eq_or_lt_of_le hn with h1 | h2
  · rw [← h1, if_pos rfl]
    unfold scanStep
    rw [ratVal_one_nan]
    rfl
  · have hfin := (ratVal_fin_of_two_le n (by omega)).1
    rw [if_neg (by omega : ¬ n = 1)]
    unfold scanStep
    rw [hfin]
    rfl

/-- A scan step taken from the initial sentinel state emits no event: both
`> 0.0` guards fail at `record = 0.0`. -/
theorem scanStep_event_init (n : ℤ) :
    (scanStep n ⟨.fin 0, .fin 0⟩).1 = none := by
  simp [scanStep, recordKind, F64.gtP]

/-- Unfolding: the final state of a scan does not depend on the emitted
events. -/
theorem scanLoop_succ_snd (k : ℕ) (n : ℤ) (st : ScanState) :
    (scanLoop (k+1) n st).2 = (scanLoop k (n+1) (scanStep n st).2).2 := rfl

/-- Unfolding: event list when the current step emits nothing. -/
theorem scanLoop_succ_fst_none (k : ℕ) (n : ℤ) (st : ScanState)
    (h : (scanStep n st).1 = none) :
    (scanLoop (k+1) n st).1 = (scanLoop k (n+1) (scanStep n st).2).1 := by
  simp only [scanLoop, h]

/-- Unfolding: event list when the current step emits an event. -/
theorem scanLoop_succ_fst_some (k : ℕ) (n : ℤ) (st : ScanState)
    (t : RecordType) (h : (scanStep n st).1 = some t) :
    (scanLoop (k+1) n st).1 =
      (n, t) :: (scanLoop k (n+1) (scanStep n st).2).1 := by
  simp only [scanLoop, h]

/-- Every emitted event carries an `n` from the scanned window. -/
theorem scanLoop_mem_bounds (k : ℕ) :
    ∀ (n : ℤ) (st : ScanState) (e : ℤ × RecordType),
      e ∈ (scanLoop k n st).1 → n ≤ e.1 ∧ e.1 < n + k := by
  induction k with
  | zero =>
    intro n st e he
    simp [scanLoop] at he
  | succ k ih =>
    intro n st e he
    rcases hev : (scanStep n st).1 with _ | t
    · rw [scanLoop_succ_fst_none k n st hev] at he
      have h2 := ih (n+1) _ e he
      constructor <;> omega
    · rw [scanLoop_succ_fst_some k n st t hev] at he
      rcases List.mem_cons.mp he with heq | hrest
      · rw [heq]
        exact ⟨le_rfl, by show n < n + ((k+1 : ℕ) : ℤ); omega⟩
      · have h2 := ih (n+1) _ e hrest
        constructor <;> omega

/-- Each `n` gives rise to at most one event in a scan. -/
theorem scanLoop_countP_le_one (k : ℕ) :
    ∀ (n m : ℤ) (st : ScanState),
      ((scanLoop k n st).1.countP fun e => decide (e.1 = m)) ≤ 1 := by
  induction k with
  | zero =>
    intro n m st
    simp [scanLoop]
  | succ k ih =>
    intro n m st
    rcases hev : (scanStep n st).1 with _ | t
    · rw [scanLoop_succ_fst_none k n st hev]
      exact ih (n+1) m _
    · rw [scanLoop_succ_fst_some k n st t hev, List.countP_cons]
      by_cases hm : m = n
      · have hzero : ((scanLoop k (n+1) (scanStep n st).2).1.countP
            fun e => decide (e.1 = m)) = 0 := by
          rw [List.countP_eq_zero]
          intro e he
          have hb := scanLoop_mem_bounds k (n+1) _ e he
          simp only [decide_eq_true_eq]
          omega
        rw [hzero]
        split_ifs <;> simp
      · have h0 : (decide (((n, t) : ℤ × RecordType).1 = m)) = false := by
          simp only [decide_eq_false_iff_not]
          show ¬ n = m
          omega
        rw [h0]
        simpa using ih (n+1) m _

/-- Final-state characterization of a scan over the window `[n, n + k)`
started from finite records `(a, b)`: both final records are finite, the
`z` record is the maximum of `a` and the scanned `z` values, and the ratio
record is the maximum of `b` and the scanned finite (`m ≠ 1`) ratio
values. -/
theorem scanLoop_final_state (k : ℕ) :
    ∀ (n : ℤ) (a b : ℝ), 1 ≤ n →
      ∃ Z R, (scanLoop k n ⟨.fin a, .fin b⟩).2 = ⟨.fin Z, .fin R⟩ ∧
        a ≤ Z ∧
        (∀ m, n ≤ m → m < n + k → zVal m ≤ Z) ∧
        (Z = a ∨ ∃ m, n ≤ m ∧ m < n + k ∧ Z = zVal m) ∧
        b ≤ R ∧
        (∀ m, n ≤ m → m < n + k → m ≠ 1 → ratReal m ≤ R) ∧
        (R = b ∨ ∃ m, n ≤ m ∧ m < n + k ∧ m ≠ 1 ∧ R = ratReal m) := by
  induction k with
  | zero =>
    intro n a b hn
    refine ⟨a, b, rfl, le_rfl, ?_, Or.inl rfl, le_rfl, ?_, Or.inl rfl⟩
    · intro m h1 h2
      exfalso
      omega
    · intro m h1 h2
      exfalso
      omega
  | succ k ih =>
    intro n a b hn
    rw [scanLoop_succ_snd, scanStep_state n hn a b]
    obtain ⟨Z, R, hfin, haZ, hubZ, hattZ, hbR, hubR, hattR⟩ :=
      ih (n+1) (max a (zVal n)) (if n = 1 then b else max b (ratReal n)) (by omega)
    refine ⟨Z, R, hfin, ?_, ?_, ?_, ?_, ?_, ?_⟩
    · exact le_trans (le_max_left _ _) haZ
    · intro m h1 h2
      by_cases hm : m = n
      · rw [hm]
        exact le_trans (le_max_right a (zVal n)) haZ
      · exact hubZ m (by omega) (by omega)
    · rcases hattZ with hZ | ⟨m, hm1, hm2, hm3⟩
      · rcases max_choice a (zVal n) with hmax | hmax
        · exact Or.inl (by rw [hZ, hmax])
        · exact Or.inr ⟨n, le_rfl, by omega, by rw [hZ, hmax]⟩
      · exact Or.inr ⟨m, by omega, by omega, hm3⟩
    · refine le_trans ?_ hbR
      split_ifs
      · exact le_rfl
      · exact le_max_left _ _
    · intro m h1 h2 hm1
      by_cases hm : m = n
      · refine le_trans ?_ hbR
        rw [hm]
        rw [if_neg (by omega : ¬ n = 1)]
        exact le_max_right _ _
      · exact hubR m (by omega) (by omega) hm1
    · rcases hattR with hR | ⟨m, hm1, hm2, hm3, hm4⟩
      · by_cases hn1 : n = 1
        · rw [if_pos hn1] at hR
          exact Or.inl hR
        · rw [if_neg hn1] at hR
          rcases max_choice b (ratReal n) with hmax | hmax
          · exact Or.inl (by rw [hR, hmax])
          · exact Or.inr ⟨n, le_rfl, by omega, hn1, by rw [hR, hmax]⟩
      · exact Or.inr ⟨m, by omega, by omega, hm3, hm4⟩

/-- C3: `do_records` scans `n = 1` up to (not including) `max_n` in
increasing order; afterwards the `z` record equals the maximum of `z(n)`
over the scanned range (attained at some scanned `n`), and the ratio
record equals the maximum of the finite ratios, i.e. of `ratio(n)` over
the scanned `n ≥ 2` — the NaN ratio of `n = 1` is ignored by `f64::max`
and never corrupts a comparison, so the first finite ratio becomes the
baseline. -/
theorem do_records_final_maxima (max_n : ℤ) (h3 : 3 ≤ max_n) :
    ∃ Z R, (do_records max_n).2 = ⟨.fin Z, .fin R⟩ ∧
      (∀ m, 1 ≤ m → m < max_n → zVal m ≤ Z) ∧
      (∃ m, 1 ≤ m ∧ m < max_n ∧ Z = zVal m) ∧
      (∀ m, 2 ≤ m → m < max_n → ratReal m ≤ R) ∧
      (∃ m, 2 ≤ m ∧ m < max_n ∧ R = ratReal m) ∧
      ratVal 1 = F64.nan := by
  obtain ⟨Z, R, hfin, haZ, hubZ, hattZ, hbR, hubR, hattR⟩ :=
    scanLoop_final_state (max_n - 1).toNat 1 0 0 le_rfl
  refine ⟨Z, R, hfin, ?_, ?_, ?_, ?_, ratVal_one_nan⟩
  · intro m h1 h2
    exact hubZ m h1 (by omega)
  · rcases hattZ with hZ | ⟨m, hm1, hm2, hm3⟩
    · exact ⟨1, le_rfl, by omega, by rw [hZ, zVal_one_val]⟩
    · exact ⟨m, hm1, by omega, hm3⟩
  · intro m h1 h2
    exact hubR m (by omega) (by omega) (by omega)
  · rcases hattR with hR | ⟨m, hm1, hm2, hm3, hm4⟩
    · exfalso
      have h2 := hubR 2 (by omega) (by omega) (by omega)
      have hpos := (ratVal_fin_of_two_le 2 (by norm_num)).2
      rw [hR] at h2
      linarith
    · exact ⟨m, by omega, by omega, hm4⟩

theorem do_records_final_maxima_witness :
    ∃ Z R, (do_records 3).2 = ⟨.fin Z, .fin R⟩ ∧
      (∀ m, 1 ≤ m → m < 3 → zVal m ≤ Z) ∧
      (∃ m, 1 ≤ m ∧ m < 3 ∧ Z = zVal m) ∧
      (∀ m, 2 ≤ m → m < 3 → ratReal m ≤ R) ∧
      (∃ m, 2 ≤ m ∧ m < 3 ∧ R = ratReal m) ∧
      ratVal 1 = F64.nan :=
  do_records_final_maxima 3 (by norm_num)

/-- C4: for any `n` in a scan at most one event is emitted (never two
separate events for the same `n`), and whenever both record flags hold
simultaneously the classification is the single combined `both` event. -/
theorem record_event_exclusive (max_n m : ℤ) (iz ir : Prop)
    (hz : iz) (hr : ir) :
    ((do_records max_n).1.countP fun e => decide (e.1 = m)) ≤ 1 ∧
    recordKind iz ir = some RecordType.both := by
  constructor
  · exact scanLoop_countP_le_one (max_n - 1).toNat 1 m _
  · unfold recordKind
    rw [if_pos ⟨hz, hr⟩]

theorem record_event_exclusive_witness :
    ((do_records 5).1.countP fun e => decide (e.1 = 2)) ≤ 1 ∧
    recordKind True True = some RecordType.both :=
  record_event_exclusive 5 2 True True trivial trivial

/-- C5: the very first scanned value, `n = 1`, never produces an event in
any scan: both records still hold the sentinel `0.0`, so both `> 0.0`
guards are false and the baseline is established silently. -/
theorem first_n_no_record (max_n : ℤ) (t : RecordType) :
    ((1 : ℤ), t) ∉ (do_records max_n).1 := by
  unfold do_records
  rcases hk : (max_n - 1).toNat with _ | k
  · simp [scanLoop]
  · intro hmem
    rw [scanLoop_succ_fst_none k 1 _ (scanStep_event_init 1)] at hmem
    have hb := scanLoop_mem_bounds k (1+1) _ ((1 : ℤ), t) hmem
    have hb1 : (1 : ℤ) + 1 ≤ 1 := hb.1
    omega

theorem first_n_no_record_witness :
    ((1 : ℤ), RecordType.z) ∉ (do_records 5).1 :=
  first_n_no_record 5 RecordType.z

/-- C6: both records start at the sentinel `0.0`, and every iteration of
the scan updates them with `f64::max` regardless of whether an event was
emitted: the `z` record becomes `max(record_z, z)` and the ratio record
never decreases — this holds even at `n = 1`, where the computed ratio is
NaN and `f64::max` keeps the previous (finite) record. -/
theorem record_state_monotone (n : ℤ) (a b : ℝ) (hn : 1 ≤ n) :
    (do_records 1).2 = ⟨.fin 0, .fin 0⟩ ∧
    (scanStep n ⟨.fin a, .fin b⟩).2.record_z = .fin (max a (zVal n)) ∧
    (∃ b', (scanStep n ⟨.fin a, .fin b⟩).2.record_rat = .fin b' ∧ b ≤ b') := by
  have hstate := scanStep_state n hn a b
  refine ⟨rfl, ?_, ?_⟩
  · rw [hstate]
  · rw [hstate]
    refine ⟨_, rfl, ?_⟩
    split_ifs
    · exact le_rfl
    · exact le_max_left _ _

theorem record_state_monotone_witness :
    (do_records 1).2 = ⟨.fin 0, .fin 0⟩ ∧
    (scanStep 1 ⟨.fin 0, .fin 0⟩).2.record_z = .fin (max 0 (zVal 1)) ∧
    (∃ b', (scanStep 1 ⟨.fin 0, .fin 0⟩).2.record_rat = .fin b' ∧ (0 : ℝ) ≤ b') :=
  record_state_monotone 1 0 0 le_rfl

/-- C7: at `tau = 1` — which among positive inputs happens exactly at
`n = 1`, where `z(1) = ln(1)/1 = 0` — the computed ratio `z / ln(tau)` is
the IEEE division `0.0 / 0.0 = NaN`; it appears as a non-finite value in
`do_single`'s output (and in the scan via `ratVal`) rather than raising
any error, with no guard in the code. -/
theorem ratio_nan_at_tau_one (n : ℤ) (hn : 1 ≤ n) :
    zVal 1 = 0 ∧ tauVal 1 = 1 ∧ ratVal 1 = F64.nan ∧
    (do_single 1).2.2 = F64.nan ∧ (tauVal n = 1 ↔ n = 1) := by
  exact ⟨zVal_one_val, tauVal_one_val, ratVal_one_nan, ratVal_one_nan,
    tauVal_eq_one_iff n hn⟩

theorem ratio_nan_at_tau_one_witness :
    zVal 1 = 0 ∧ tauVal 1 = 1 ∧ ratVal 1 = F64.nan ∧
    (do_single 1).2.2 = F64.nan ∧ (tauVal 4 = 1 ↔ (4 : ℤ) = 1) :=
  ratio_nan_at_tau_one 4 (by norm_num)
